import Mathlib

/-!
Verification of the m00sic greedy melody generator.

This file gives a shallow embedding of the scoring and search code in
`src/m00sic/optim.py` and the chord/scale utilities in `src/m00sic/util.py`,
together with theorems settling the specification claims about them.

Pitches are embedded as integers (`ℤ`, MIDI numbers), note sequences as lists
of pitches, chord progressions as lists of lists of pitches, and the global
random source (Python's `random` module) as an explicit stream `ℕ → ℕ` of
draws, where `random.choice(lst)` consumes one draw `r` and returns
`lst[r % len(lst)]`.  Scoring weights live in a `ScoringConfig` record so that
theorems quantify over every configuration of the reward constants.
-/

namespace M00sic

/-- Modelled from the spec: the repository imports a `constants` module that is
not present in the source tree; this table pairs each supported key's name
with the pitch-class rank (0–11) of its tonal center, following the
pitch-class table in `core.py` (C = 0, …, B = 11).  The spec describes keys
as a tonal center plus a major/minor-like quality; we model the twelve major
keys, one per pitch class. -/
def KEY_TABLE : List (String × ℤ) :=
  [("C", 0), ("C#", 1), ("D", 2), ("D#", 3), ("E", 4), ("F", 5),
   ("F#", 6), ("G", 7), ("G#", 8), ("A", 9), ("A#", 10), ("B", 11)]

/-- Modelled from the spec: `constants.KEYS`, the supported key set from
which `get_random_key` draws. -/
def KEYS : List String := KEY_TABLE.map (fun kv => kv.1)

/-- The pitch-class rank of a key's tonal center. -/
def key_rank (key : String) : ℤ :=
  ((KEY_TABLE.find? (fun kv => kv.1 == key)).map (fun kv => kv.2)).getD 0

/-- Modelled from the spec: `constants.TONIC_NOTE_FOR_KEY`, the tonic note of
each key.  `core.py` uses octave 4 as its default octave, so the tonic is the
octave-4 note of the key's pitch class (C4 = MIDI 60). -/
def TONIC_NOTE_FOR_KEY (key : String) : ℤ := 60 + key_rank key

/-- Interval pattern of a major key, as in `core.py` (`MajorKey._intervals`). -/
def MAJOR_SCALE_INTERVALS : List ℤ := [0, 2, 4, 5, 7, 9, 11]

/-- Modelled from the spec: `constants.NOTES_FOR_KEY`, the ordered member
pitches of each key.  Per the spec's Key invariant, these are exactly the
pitches congruent to the key's interval pattern modulo 12, across all octaves
of the playable range 21–108 (`LOWEST_PIANO_MIDI_NUM`–`HIGHEST_PIANO_MIDI_NUM`
in `core.py`), in ascending order. -/
def NOTES_FOR_KEY (key : String) : List ℤ :=
  ((List.range' 21 88).map (fun n => (n : ℤ))).filter
    (fun p => decide ((p - key_rank key) % 12 ∈ MAJOR_SCALE_INTERVALS))

/-- Modelled from the spec: `constants.STEPS_FOR_CHORD`, the ordered pitch
offsets from a chord's root for each chord type.  `build_chord_progression`
only uses `"major_triad"`, a root-position major triad: offsets 0, 4, 7. -/
def STEPS_FOR_CHORD (chord : String) : Option (List ℤ) :=
  if chord = "major_triad" then some [0, 4, 7] else none

/-- The scoring weights of `constants`, exposed as tunable parameters
(spec §4.1: named configuration constants, not hard-coded per call). -/
structure ScoringConfig where
  NOTE_IN_KEY_REWARD : ℤ
  NOTE_IN_CHORDS_REWARD : ℤ
  CONSONANT_INTERVAL_REWARD : ℤ
  SUPER_CONSONANT_INTERVAL_REWARD : ℤ
  DISSONANT_INTERVAL_REWARD : ℤ
  CENTRICITY_FACTOR : ℤ

/-- Embeds `util.OFFSET_TO_INT` (a dict lookup; `none` models a missing key,
which in `get_starting_note` is guarded by an assert). -/
def OFFSET_TO_INT (offset : String) : Option ℕ :=
  match offset with
  | "I" => some 0
  | "II" => some 1
  | "III" => some 2
  | "IV" => some 3
  | "V" => some 4
  | "VI" => some 5
  | _ => none

/-- Embeds `util.get_starting_note`: look up the tonic's index in the key's
note list, add the scale-degree offset, and index back into the list.
`none` models the assert on an invalid offset, a tonic missing from the note
list (`list.index` raising), or the offset index running past the end of the
list (`IndexError`). -/
def get_starting_note (key : String) (offset : String) : Option ℤ :=
  match OFFSET_TO_INT offset with
  | none => none
  | some offset_int =>
    let notes := NOTES_FOR_KEY key
    let tonic := TONIC_NOTE_FOR_KEY key
    match notes.indexOf? tonic with
    | none => none
    | some tonic_idx => notes.get? (tonic_idx + offset_int)

/-- Embeds `util.get_chord`: after asserting the key is valid, the starting
note is in the key, and the chord type is known, return the starting note
shifted by each chord step.  `none` models an assert failure. -/
def get_chord (key : String) (starting_note : ℤ) (chord : String) : Option (List ℤ) :=
  if key ∈ KEYS then
    if starting_note ∈ NOTES_FOR_KEY key then
      (STEPS_FOR_CHORD chord).map (fun steps => steps.map (fun i => starting_note + i))
    else none
  else none

/-- Python's `sorted` on a list of pitches: stable ascending sort. -/
def sortedAsc (l : List ℤ) : List ℤ := List.insertionSort (· ≤ ·) l

/-- Embeds `util.get_chord_first_inversion`:
`sorted(notes[1:] + notes[:1])`. -/
def get_chord_first_inversion (key : String) (starting_note : ℤ) (chord : String) :
    Option (List ℤ) :=
  (get_chord key starting_note chord).map
    (fun notes => sortedAsc (notes.drop 1 ++ notes.take 1))

/-- Embeds `util.get_chord_second_inversion`:
`sorted(notes[-1:] + notes[:-1])`. -/
def get_chord_second_inversion (key : String) (starting_note : ℤ) (chord : String) :
    Option (List ℤ) :=
  (get_chord key starting_note chord).map
    (fun notes => sortedAsc (notes.drop (notes.length - 1) ++ notes.take (notes.length - 1)))

/-- Embeds `util.build_chord_progression`: the fixed I, V, VI, IV cadence with
the V and IV chords taken in second inversion and the VI chord in first
inversion. -/
def build_chord_progression (key : String) : Option (List (List ℤ)) := do
  let note1 ← get_starting_note key "I"
  let chord1 ← get_chord key note1 "major_triad"
  let note2 ← get_starting_note key "V"
  let chord2 ← get_chord_second_inversion key note2 "major_triad"
  let note3 ← get_starting_note key "VI"
  let chord3 ← get_chord_first_inversion key note3 "major_triad"
  let note4 ← get_starting_note key "IV"
  let chord4 ← get_chord_second_inversion key note4 "major_triad"
  pure [chord1, chord2, chord3, chord4]

/-- Embeds `util.all_octaves`: every octave re-projection `i*12 + note` for
`i ∈ [-7, 7]` that lies within the hard-coded bounds 21 and 100. -/
def all_octaves (note : ℤ) : List ℤ :=
  (([-7, -6, -5, -4, -3, -2, -1, 0, 1, 2, 3, 4, 5, 6, 7] : List ℤ).filter
    (fun i => decide (21 ≤ i * 12 + note ∧ i * 12 + note ≤ 100))).map
    (fun i => i * 12 + note)

/-- Embeds `optim.calculate_score_of_new_note`.  The Python code reads
`previous_notes[-1]`, which raises on an empty history; `none` models that
failure, and on a non-empty history the result is the sum of the five
heuristic terms exactly as accumulated by the source. -/
def calculate_score_of_new_note (cfg : ScoringConfig) (key : String)
    (chord_progression : List (List ℤ)) (previous_notes : List ℤ) (new_note : ℤ) :
    Option ℤ :=
  previous_notes.getLast?.map (fun lastNote =>
    let generated_note := new_note
    -- valid note for key
    let s1 : ℤ :=
      if generated_note ∈ NOTES_FOR_KEY key then cfg.NOTE_IN_KEY_REWARD
      else -cfg.NOTE_IN_KEY_REWARD
    -- note in chord
    let s2 :=
      if generated_note ∈ chord_progression.flatten then s1 + cfg.NOTE_IN_CHORDS_REWARD
      else s1
    -- perfect unison
    let s3 :=
      if generated_note ∈ all_octaves lastNote then s2 + cfg.CONSONANT_INTERVAL_REWARD
      else s2
    -- perfect fourth
    let s4 :=
      if generated_note ∈ all_octaves (lastNote + 5) then s3 + cfg.CONSONANT_INTERVAL_REWARD
      else s3
    -- perfect fifth
    let s5 :=
      if generated_note ∈ all_octaves (lastNote + 7) then
        s4 + cfg.SUPER_CONSONANT_INTERVAL_REWARD
      else s4
    -- minor second
    let s6 :=
      if generated_note ∈ all_octaves (lastNote + 1) then
        s5 + cfg.DISSONANT_INTERVAL_REWARD
      else s5
    -- centricity
    s6 + (previous_notes.count generated_note : ℤ) * cfg.CENTRICITY_FACTOR)

/-- Embeds `optim.value_fn`: iterate over positions `end = 1 .. len-1`
(the source enumerates `pitches[1:]` starting at index 1) and accumulate the
single-candidate score of `pitches[end]` against the history `pitches[:end]`.
Failure of any single-candidate score (empty history) propagates. -/
def value_fn (cfg : ScoringConfig) (key : String) (chord_progression : List (List ℤ))
    (pitches : List ℤ) : Option ℤ :=
  (List.range' 1 (pitches.length - 1)).foldl
    (fun acc e =>
      acc.bind (fun s =>
        (calculate_score_of_new_note cfg key chord_progression
            (pitches.take e) (pitches.getD e 0)).map (fun t => s + t)))
    (some 0)

/-- The selection made by one iteration of the greedy loop in
`optim.local_search`.  Each candidate in the key's note list is scored by `f`
against the current history, candidates are grouped by score (the dict
`new_note_scores`), and `random.choice` picks among the candidates tied for
the maximal score (`max(new_note_scores.keys())`) using the draw `r`. -/
def select_note (f : String → List (List ℤ) → List ℤ → ℤ → ℤ) (key : String)
    (chord_progression : List (List ℤ)) (hist : List ℤ) (r : ℕ) : ℤ :=
  let cands := NOTES_FOR_KEY key
  let sc := fun n => f key chord_progression hist n
  let maxScore := (cands.map sc).max?.getD 0
  let tied := cands.filter (fun n => sc n == maxScore)
  tied.getD (r % tied.length) 0

/-- One iteration of the greedy loop in `optim.local_search`, acting on the
state `(pitches so far, per-step scores recorded so far)`: append the note
selected by `select_note` together with the score computed for it. -/
def greedy_step (f : String → List (List ℤ) → List ℤ → ℤ → ℤ) (key : String)
    (chord_progression : List (List ℤ)) (st : List ℤ × List ℤ) (r : ℕ) :
    List ℤ × List ℤ :=
  let selected_note := select_note f key chord_progression st.1 r
  (st.1 ++ [selected_note], st.2 ++ [f key chord_progression st.1 selected_note])

/-- The data produced by one run of `optim.local_search`: the randomly chosen
key, the progression built for it, the pitches of the result sequence, and the
per-step scores computed for the appended notes. -/
structure RunResult where
  key : String
  chord_progression : List (List ℤ)
  pitches : List ℤ
  scores : List ℤ
  deriving Repr

/-- The key `optim.local_search` picks at random (`utils.get_random_key`,
i.e. `random.choice(constants.KEYS)`), using draw 0 of the random source. -/
def chosen_key (rng : ℕ → ℕ) : String :=
  KEYS.getD (rng 0 % KEYS.length) "C"

/-- The progression `optim.local_search` builds once for the chosen key. -/
def chosen_progression (rng : ℕ → ℕ) : List (List ℤ) :=
  (build_chord_progression (chosen_key rng)).getD []

/-- The seed pitch `optim.local_search` picks at random
(`utils.get_random_note_from_key`, i.e.
`random.choice(constants.NOTES_FOR_KEY[key])`), using draw 1. -/
def chosen_seed (rng : ℕ → ℕ) : ℤ :=
  (NOTES_FOR_KEY (chosen_key rng)).getD
    (rng 1 % (NOTES_FOR_KEY (chosen_key rng)).length) 0

/-- The source hard-codes `desired_length = 10` inside `local_search`. -/
def desired_length : ℕ := 10

/-- The state of the greedy loop of `optim.local_search` after all iterations
`i ∈ range(1, desired_length)`, starting from the seeded one-note sequence.
Tie-break `i` uses draw `i + 1` of the random source. -/
def run_state (f : String → List (List ℤ) → List ℤ → ℤ → ℤ) (rng : ℕ → ℕ) :
    List ℤ × List ℤ :=
  (List.range' 1 (desired_length - 1)).foldl
    (fun st i => greedy_step f (chosen_key rng) (chosen_progression rng) st (rng (i + 1)))
    ([chosen_seed rng], [])

/-- Embeds `optim.local_search` (instrumented with the per-step scores it
computes for the notes it appends): a key is drawn at random, its progression
built once, the sequence seeded with a random note of the key, and then
`desired_length - 1` greedy steps are run. -/
def local_search_run (f : String → List (List ℤ) → List ℤ → ℤ → ℤ) (rng : ℕ → ℕ) :
    RunResult :=
  ⟨chosen_key rng, chosen_progression rng, (run_state f rng).1, (run_state f rng).2⟩

/-- The pitch sequence returned by `optim.local_search`. -/
def local_search (f : String → List (List ℤ) → List ℤ → ℤ → ℤ) (rng : ℕ → ℕ) :
    List ℤ :=
  (local_search_run f rng).pitches

/-- The total scorer `run.py` passes to `local_search`
(`calculate_score_of_new_note`); inside the builder the history is always
non-empty, so the `Option` never misses and the default is never consulted. -/
def calculate_score_total (cfg : ScoringConfig) (key : String)
    (chord_progression : List (List ℤ)) (previous_notes : List ℤ) (new_note : ℤ) : ℤ :=
  (calculate_score_of_new_note cfg key chord_progression previous_notes new_note).getD 0

/-! ### Helper lemmas -/

/-- The element `random.choice` returns (embedded as `getD` at a draw reduced
modulo the length) is a member of the list, provided the list is non-empty. -/
lemma getD_mod_mem {α : Type} (l : List α) (n : ℕ) (d : α) (h : l ≠ []) :
    l.getD (n % l.length) d ∈ l := by
  have hlen : 0 < l.length := List.length_pos.2 h
  have hlt : n % l.length < l.length := Nat.mod_lt _ hlen
  rw [List.getD_eq_getElem?_getD, List.getElem?_eq_getElem hlt]
  exact List.getElem_mem hlt

lemma KEYS_ne_nil : KEYS ≠ [] := by decide

/-- Every supported key has a non-empty pitch set. -/
lemma NOTES_FOR_KEY_ne_nil : ∀ k ∈ KEYS, NOTES_FOR_KEY k ≠ [] := by decide

lemma chosen_key_mem (rng : ℕ → ℕ) : chosen_key rng ∈ KEYS :=
  getD_mod_mem _ _ _ KEYS_ne_nil

lemma chosen_key_notes_ne_nil (rng : ℕ → ℕ) : NOTES_FOR_KEY (chosen_key rng) ≠ [] :=
  NOTES_FOR_KEY_ne_nil _ (chosen_key_mem rng)

lemma chosen_seed_mem (rng : ℕ → ℕ) :
    chosen_seed rng ∈ NOTES_FOR_KEY (chosen_key rng) :=
  getD_mod_mem _ _ _ (chosen_key_notes_ne_nil rng)

/-- The value Python's `max` returns on a non-empty list of scores is a member
of the list and an upper bound for it. -/
lemma max?_getD_spec (l : List ℤ) (h : l ≠ []) :
    l.max?.getD 0 ∈ l ∧ ∀ x ∈ l, x ≤ l.max?.getD 0 := by
  obtain ⟨m, hm⟩ : ∃ m, l.max? = some m := by
    cases hl : l.max? with
    | none => exact absurd (List.max?_eq_none_iff.1 hl) h
    | some m => exact ⟨m, rfl⟩
  rw [hm]
  refine ⟨List.max?_mem (fun a b => max_choice a b) hm, fun x hx => ?_⟩
  exact (List.max?_le_iff (fun a b c => max_le_iff) hm).1 le_rfl x hx

/-- The note selected at a greedy step is one of the candidates tied for the
maximal score; in particular it is an in-key candidate and its score is an
upper bound for every candidate's score. -/
lemma select_note_spec (f : String → List (List ℤ) → List ℤ → ℤ → ℤ) (key : String)
    (cp : List (List ℤ)) (hist : List ℤ) (r : ℕ) (h : NOTES_FOR_KEY key ≠ []) :
    select_note f key cp hist r ∈ (NOTES_FOR_KEY key).filter
      (fun n => f key cp hist n ==
        ((NOTES_FOR_KEY key).map (fun n' => f key cp hist n')).max?.getD 0) ∧
    select_note f key cp hist r ∈ NOTES_FOR_KEY key ∧
    ∀ m ∈ NOTES_FOR_KEY key,
      f key cp hist m ≤ f key cp hist (select_note f key cp hist r) := by
  have hmap : (NOTES_FOR_KEY key).map (fun n' => f key cp hist n') ≠ [] := by
    simpa using h
  obtain ⟨hmem, hub⟩ := max?_getD_spec _ hmap
  obtain ⟨w, hw, hweq⟩ := List.mem_map.1 hmem
  have htied : w ∈ (NOTES_FOR_KEY key).filter
      (fun n => f key cp hist n ==
        ((NOTES_FOR_KEY key).map (fun n' => f key cp hist n')).max?.getD 0) :=
    List.mem_filter.2 ⟨hw, beq_iff_eq.2 hweq⟩
  have htiedne : (NOTES_FOR_KEY key).filter
      (fun n => f key cp hist n ==
        ((NOTES_FOR_KEY key).map (fun n' => f key cp hist n')).max?.getD 0) ≠ [] :=
    List.ne_nil_of_mem htied
  have hsel : select_note f key cp hist r ∈ (NOTES_FOR_KEY key).filter
      (fun n => f key cp hist n ==
        ((NOTES_FOR_KEY key).map (fun n' => f key cp hist n')).max?.getD 0) :=
    getD_mod_mem _ _ _ htiedne
  obtain ⟨hselmem, hseleq⟩ := List.mem_filter.1 hsel
  refine ⟨hsel, hselmem, fun m hm => ?_⟩
  rw [beq_iff_eq.1 hseleq]
  exact hub _ (List.mem_map.2 ⟨m, hm, rfl⟩)

lemma greedy_step_fst (f : String → List (List ℤ) → List ℤ → ℤ → ℤ) (key : String)
    (cp : List (List ℤ)) (st : List ℤ × List ℤ) (r : ℕ) :
    (greedy_step f key cp st r).1 = st.1 ++ [select_note f key cp st.1 r] := rfl

lemma greedy_step_snd (f : String → List (List ℤ) → List ℤ → ℤ → ℤ) (key : String)
    (cp : List (List ℤ)) (st : List ℤ × List ℤ) (r : ℕ) :
    (greedy_step f key cp st r).2 =
      st.2 ++ [f key cp st.1 (select_note f key cp st.1 r)] := rfl

/-- Invariant preservation through the greedy loop of `local_search`. -/
lemma foldl_greedy_invariant (P : List ℤ × List ℤ → Prop)
    (f : String → List (List ℤ) → List ℤ → ℤ → ℤ) (key : String)
    (cp : List (List ℤ)) (rng : ℕ → ℕ) (l : List ℕ) (st0 : List ℤ × List ℤ)
    (h0 : P st0) (hstep : ∀ st r, P st → P (greedy_step f key cp st r)) :
    P (l.foldl (fun st i => greedy_step f key cp st (rng (i + 1))) st0) := by
  induction l generalizing st0 with
  | nil => exact h0
  | cons a l ih => exact ih _ (hstep _ _ h0)

/-- On a non-empty history, the single-candidate scorer succeeds. -/
lemma calculate_score_isSome (cfg : ScoringConfig) (key : String)
    (cp : List (List ℤ)) (hist : List ℤ) (cand : ℤ) (h : hist ≠ []) :
    ∃ s, calculate_score_of_new_note cfg key cp hist cand = some s := by
  obtain ⟨lastNote, hl⟩ : ∃ l, hist.getLast? = some l := by
    cases hl : hist.getLast? with
    | none => exact absurd (List.getLast?_eq_none_iff.1 hl) h
    | some l => exact ⟨l, rfl⟩
  exact ⟨_, by rw [calculate_score_of_new_note, hl]; rfl⟩

lemma calculate_score_total_eq (cfg : ScoringConfig) (key : String)
    (cp : List (List ℤ)) (hist : List ℤ) (cand : ℤ) {s : ℤ}
    (h : calculate_score_of_new_note cfg key cp hist cand = some s) :
    calculate_score_total cfg key cp hist cand = s := by
  rw [calculate_score_total, h]; rfl

lemma value_fn_singleton (cfg : ScoringConfig) (key : String) (cp : List (List ℤ))
    (x : ℤ) : value_fn cfg key cp [x] = some 0 := rfl

/-- Appending one pitch to a non-empty sequence extends the full-sequence
score by the single-candidate score of the new pitch against the old sequence
as history. -/
lemma value_fn_append (cfg : ScoringConfig) (key : String) (cp : List (List ℤ))
    (ps : List ℤ) (x : ℤ) (h : ps ≠ []) :
    value_fn cfg key cp (ps ++ [x]) =
      (value_fn cfg key cp ps).bind (fun s =>
        (calculate_score_of_new_note cfg key cp ps x).map (fun t => s + t)) := by
  obtain ⟨m, hm⟩ : ∃ m, ps.length = m + 1 :=
    ⟨ps.length - 1, by have := List.length_pos.2 h; omega⟩
  have hlen : (ps ++ [x]).length - 1 = m + 1 := by simp [hm]
  unfold value_fn
  rw [hlen, hm]
  simp only [Nat.add_sub_cancel]
  rw [List.range'_1_concat, List.foldl_append]
  have hext : (List.range' 1 m).foldl
      (fun acc e => acc.bind (fun s =>
        (calculate_score_of_new_note cfg key cp ((ps ++ [x]).take e)
          ((ps ++ [x]).getD e 0)).map (fun t => s + t))) (some 0) =
      (List.range' 1 m).foldl
      (fun acc e => acc.bind (fun s =>
        (calculate_score_of_new_note cfg key cp (ps.take e)
          (ps.getD e 0)).map (fun t => s + t))) (some 0) := by
    apply List.foldl_ext
    intro a e he
    have he2 : e < ps.length := by
      have := List.mem_range'_1.1 he; omega
    simp only [List.getD_eq_getElem?_getD]
    rw [List.take_append_of_le_length (Nat.le_of_lt he2),
      List.getElem?_append_left he2]
  rw [hext]
  simp only [List.foldl_cons, List.foldl_nil]
  have htake : (ps ++ [x]).take (1 + m) = ps := List.take_left' (by omega)
  have hgetD : (ps ++ [x]).getD (1 + m) 0 = x := by
    rw [List.getD_eq_getElem?_getD, List.getElem?_append_right (by omega)]
    have h0 : 1 + m - ps.length = 0 := by omega
    rw [h0]
    rfl
  rw [htake, hgetD]

/-- The full-sequence score of a non-empty sequence is the sum, over every
position from the second pitch onward, of the single-candidate score of that
pitch against the prefix of all earlier pitches as history. -/
lemma value_fn_eq_sum (cfg : ScoringConfig) (key : String) (cp : List (List ℤ)) :
    ∀ ps : List ℤ, ps ≠ [] →
      value_fn cfg key cp ps =
        some (∑ i ∈ Finset.range (ps.length - 1),
          calculate_score_total cfg key cp (ps.take (i + 1)) (ps.getD (i + 1) 0)) := by
  intro ps
  induction ps using List.reverseRecOn with
  | nil => intro hne; exact absurd rfl hne
  | append_singleton ps x ih =>
    intro _
    rcases eq_or_ne ps [] with rfl | hps
    · simp [value_fn_singleton]
    · obtain ⟨v, hv⟩ := calculate_score_isSome cfg key cp ps x hps
      rw [value_fn_append cfg key cp ps x hps, ih hps, hv]
      simp only [Option.some_bind, Option.map_some']
      obtain ⟨n, hn⟩ : ∃ n, ps.length = n + 1 :=
        ⟨ps.length - 1, by have := List.length_pos.2 hps; omega⟩
      have hlen : (ps ++ [x]).length - 1 = n + 1 := by simp [hn]
      rw [hlen, Finset.sum_range_succ]
      have htake : (ps ++ [x]).take (n + 1) = ps := List.take_left' hn
      have hgetD : (ps ++ [x]).getD (n + 1) 0 = x := by
        rw [List.getD_eq_getElem?_getD, List.getElem?_append_right (by omega)]
        have h0 : n + 1 - ps.length = 0 := by omega
        rw [h0]
        rfl
      rw [htake, hgetD, calculate_score_total_eq cfg key cp ps x hv]
      congr 1
      rw [hn]
      simp only [Nat.add_sub_cancel]
      congr 1
      apply Finset.sum_congr rfl
      intro i hi
      have hi2 : i + 1 < ps.length := by
        have := Finset.mem_range.1 hi; omega
      simp only [List.getD_eq_getElem?_getD]
      rw [List.take_append_of_le_length (Nat.le_of_lt hi2),
        List.getElem?_append_left hi2]

/-- Every pitch in the builder's state is a member of the chosen key's pitch
set: the seed by construction, and every appended pitch because candidates are
drawn from `NOTES_FOR_KEY`. -/
lemma run_state_pitches_mem (f : String → List (List ℤ) → List ℤ → ℤ → ℤ)
    (rng : ℕ → ℕ) : ∀ p ∈ (run_state f rng).1, p ∈ NOTES_FOR_KEY (chosen_key rng) := by
  unfold run_state
  apply foldl_greedy_invariant
    (P := fun st => ∀ p ∈ st.1, p ∈ NOTES_FOR_KEY (chosen_key rng))
  · intro p hp
    rw [List.mem_singleton.1 hp]
    exact chosen_seed_mem rng
  · intro st r hP p hp
    rw [greedy_step_fst] at hp
    rcases List.mem_append.1 hp with hold | hnew
    · exact hP p hold
    · rw [List.mem_singleton.1 hnew]
      exact (select_note_spec f _ _ _ _ (chosen_key_notes_ne_nil rng)).2.1

lemma foldl_greedy_length (f : String → List (List ℤ) → List ℤ → ℤ → ℤ)
    (key : String) (cp : List (List ℤ)) (rng : ℕ → ℕ) :
    ∀ (l : List ℕ) (st : List ℤ × List ℤ),
      ((l.foldl (fun st i => greedy_step f key cp st (rng (i + 1))) st).1).length =
        st.1.length + l.length := by
  intro l
  induction l with
  | nil => intro st; simp
  | cons a l ih =>
    intro st
    rw [List.foldl_cons, ih, greedy_step_fst]
    simp
    omega

/-- The builder always produces exactly `desired_length = 10` pitches: the
seed plus one appended pitch per loop iteration. -/
lemma local_search_length (f : String → List (List ℤ) → List ℤ → ℤ → ℤ)
    (rng : ℕ → ℕ) : (local_search f rng).length = 10 := by
  show (run_state f rng).1.length = 10
  rw [run_state, foldl_greedy_length]
  simp [desired_length]

lemma run_state_fst_ne_nil (f : String → List (List ℤ) → List ℤ → ℤ → ℤ)
    (rng : ℕ → ℕ) : (run_state f rng).1 ≠ [] := by
  have h := foldl_greedy_length f (chosen_key rng) (chosen_progression rng) rng
    (List.range' 1 (desired_length - 1)) ([chosen_seed rng], [])
  rw [← run_state] at h
  intro hnil
  rw [hnil] at h
  simp [desired_length] at h

/-- The full-sequence score of the builder's output equals the sum of the
per-step scores the builder computed for the notes it appended. -/
lemma run_value_eq_scores_sum (cfg : ScoringConfig) (rng : ℕ → ℕ) :
    value_fn cfg (chosen_key rng) (chosen_progression rng)
        (run_state (calculate_score_total cfg) rng).1 =
      some ((run_state (calculate_score_total cfg) rng).2).sum := by
  suffices h : (run_state (calculate_score_total cfg) rng).1 ≠ [] ∧
      value_fn cfg (chosen_key rng) (chosen_progression rng)
          (run_state (calculate_score_total cfg) rng).1 =
        some ((run_state (calculate_score_total cfg) rng).2).sum from h.2
  unfold run_state
  apply foldl_greedy_invariant
    (P := fun st => st.1 ≠ [] ∧
      value_fn cfg (chosen_key rng) (chosen_progression rng) st.1 = some st.2.sum)
  · exact ⟨List.cons_ne_nil _ _, by simp [value_fn_singleton]⟩
  · rintro st r ⟨h1, h2⟩
    refine ⟨by simp [greedy_step_fst], ?_⟩
    rw [greedy_step_fst, greedy_step_snd,
      value_fn_append cfg (chosen_key rng) (chosen_progression rng) st.1 _ h1, h2]
    obtain ⟨v, hv⟩ := calculate_score_isSome cfg (chosen_key rng)
      (chosen_progression rng) st.1
      (select_note (calculate_score_total cfg) (chosen_key rng)
        (chosen_progression rng) st.1 r) h1
    rw [hv]
    simp only [Option.some_bind, Option.map_some']
    rw [List.sum_append,
      calculate_score_total_eq cfg (chosen_key rng) (chosen_progression rng) _ _ hv]
    simp

/-- Follows the spec's words for the chord-membership term (claim C3): add the
chord reward when the candidate's pitch class (value modulo 12) appears among
the pitch classes of the union of all chords across the progression.  This
definition exists only for comparison with `calculate_score_of_new_note`,
whose chord term tests exact pitch membership in the union instead. -/
def calculate_score_spec_chord_pc (cfg : ScoringConfig) (key : String)
    (chord_progression : List (List ℤ)) (previous_notes : List ℤ) (new_note : ℤ) :
    Option ℤ :=
  previous_notes.getLast?.map (fun lastNote =>
    let generated_note := new_note
    let s1 : ℤ :=
      if generated_note ∈ NOTES_FOR_KEY key then cfg.NOTE_IN_KEY_REWARD
      else -cfg.NOTE_IN_KEY_REWARD
    let s2 :=
      if generated_note % 12 ∈ chord_progression.flatten.map (fun n => n % 12) then
        s1 + cfg.NOTE_IN_CHORDS_REWARD
      else s1
    let s3 :=
      if generated_note ∈ all_octaves lastNote then s2 + cfg.CONSONANT_INTERVAL_REWARD
      else s2
    let s4 :=
      if generated_note ∈ all_octaves (lastNote + 5) then s3 + cfg.CONSONANT_INTERVAL_REWARD
      else s3
    let s5 :=
      if generated_note ∈ all_octaves (lastNote + 7) then
        s4 + cfg.SUPER_CONSONANT_INTERVAL_REWARD
      else s4
    let s6 :=
      if generated_note ∈ all_octaves (lastNote + 1) then
        s5 + cfg.DISSONANT_INTERVAL_REWARD
      else s5
    s6 + (previous_notes.count generated_note : ℤ) * cfg.CENTRICITY_FACTOR)

/-- A sample scoring configuration with pairwise distinct weights, used for
concrete witnesses and counterexamples. -/
def sampleConfig : ScoringConfig := ⟨2, 3, 5, 7, 11, 13⟩

/-! ### Claims -/

/-- C1: at every construction step of the greedy builder, every candidate
pitch of the current key's pitch set is scored against the current history;
the appended pitch is a member of the candidate list of notes tied for the
maximal score (from which the random source chooses), it is itself a
candidate, its score bounds every candidate's score from above, and the
builder's step appends exactly this selected note. -/
theorem claim_C1 (f : String → List (List ℤ) → List ℤ → ℤ → ℤ) (key : String)
    (cp : List (List ℤ)) (hist ss : List ℤ) (r : ℕ) (h : NOTES_FOR_KEY key ≠ []) :
    select_note f key cp hist r ∈ (NOTES_FOR_KEY key).filter
      (fun n => f key cp hist n ==
        ((NOTES_FOR_KEY key).map (fun n' => f key cp hist n')).max?.getD 0) ∧
    select_note f key cp hist r ∈ NOTES_FOR_KEY key ∧
    (∀ m ∈ NOTES_FOR_KEY key,
      f key cp hist m ≤ f key cp hist (select_note f key cp hist r)) ∧
    (greedy_step f key cp (hist, ss) r).1 = hist ++ [select_note f key cp hist r] := by
  obtain ⟨h1, h2, h3⟩ := select_note_spec f key cp hist r h
  exact ⟨h1, h2, h3, rfl⟩

/-- Concrete instance of claim C1 in the key of C with the identity scorer. -/
theorem claim_C1_witness :
    NOTES_FOR_KEY "C" ≠ [] ∧
    select_note (fun _ _ _ n => n) "C" [] [60] 0 ∈ NOTES_FOR_KEY "C" :=
  ⟨by decide, (claim_C1 (fun _ _ _ n => n) "C" [] [60] [] 0 (by decide)).2.1⟩

/-- C2: every pitch of the sequence produced by the builder — the seed note
and every appended note — is a member of the chosen key's pitch set. -/
theorem claim_C2 (f : String → List (List ℤ) → List ℤ → ℤ → ℤ) (rng : ℕ → ℕ) :
    ∀ p ∈ (local_search_run f rng).pitches,
      p ∈ NOTES_FOR_KEY (local_search_run f rng).key := by
  intro p hp
  exact run_state_pitches_mem f rng p hp

/-- Concrete instance of claim C2: the first pitch of an all-zero-draw run
with a constant scorer lies in the chosen key's pitch set. -/
theorem claim_C2_witness :
    (21:ℤ) ∈ NOTES_FOR_KEY (local_search_run (fun _ _ _ _ => (0:ℤ)) (fun _ => 0)).key :=
  claim_C2 (fun _ _ _ _ => (0:ℤ)) (fun _ => 0) 21 (by decide)

/-- C3 counterexample: candidate 72 (C5) has the same pitch class as chord
member 60 (C4), so per the claim the chord reward (3) would be added; the code
tests exact membership in the flattened progression, so it is not: the code's
score is 7 (key reward 2 + unison-octave reward 5), not 10. -/
theorem claim_C3_counterexample :
    ((72:ℤ) % 12 = 60 % 12) ∧
    ((72:ℤ) ∉ ([[60]] : List (List ℤ)).flatten) ∧
    calculate_score_of_new_note sampleConfig "C" [[60]] [60] 72 = some 7 ∧
    calculate_score_spec_chord_pc sampleConfig "C" [[60]] [60] 72 = some 10 ∧
    calculate_score_of_new_note sampleConfig "C" [[60]] [60] 72 ≠
      calculate_score_spec_chord_pc sampleConfig "C" [[60]] [60] 72 := by
  decide

set_option maxHeartbeats 1600000 in
/-- C3 (amended): for every key, progression, non-empty history and candidate,
the scorer adds the chord reward exactly when the candidate's exact pitch
value (not merely its pitch class) appears in the union of all chords in the
progression, and adds no penalty when it does not: the score equals the score
with the chord reward zeroed, plus the reward exactly on membership. -/
theorem claim_C3 (cfg : ScoringConfig) (key : String) (cp : List (List ℤ))
    (hist : List ℤ) (cand : ℤ) (h : hist ≠ []) :
    calculate_score_of_new_note cfg key cp hist cand =
      (calculate_score_of_new_note
          { cfg with NOTE_IN_CHORDS_REWARD := 0 } key cp hist cand).map
        (fun s => s + if cand ∈ cp.flatten then cfg.NOTE_IN_CHORDS_REWARD else 0) := by
  obtain ⟨lastNote, hl⟩ : ∃ l, hist.getLast? = some l := by
    cases hl : hist.getLast? with
    | none => exact absurd (List.getLast?_eq_none_iff.1 hl) h
    | some l => exact ⟨l, rfl⟩
  simp only [calculate_score_of_new_note, hl, Option.map_some']
  congr 1
  split_ifs <;> ring

/-- Concrete instance of the amended claim C3. -/
theorem claim_C3_witness :
    calculate_score_of_new_note sampleConfig "C" [[60]] [60] 72 =
      (calculate_score_of_new_note
          { sampleConfig with NOTE_IN_CHORDS_REWARD := 0 } "C" [[60]] [60] 72).map
        (fun s => s + if (72:ℤ) ∈ ([[60]] : List (List ℤ)).flatten then
          sampleConfig.NOTE_IN_CHORDS_REWARD else 0) :=
  claim_C3 sampleConfig "C" [[60]] [60] 72 (by decide)

/-- C4 counterexample: 105 is congruent to 21 modulo 12 and lies within the
playable range bounds 21 and 108 claimed by the spec, yet `all_octaves 21`
does not contain it: the code's upper bound is the hard-coded 100. -/
theorem claim_C4_counterexample :
    ((105:ℤ) % 12 = 21 % 12) ∧ (21 ≤ (105:ℤ)) ∧ ((105:ℤ) ≤ 108) ∧
    (105:ℤ) ∉ all_octaves 21 := by
  decide

/-- C4 (amended): for every pitch `p` with `16 ≤ p ≤ 105` (which covers every
playable pitch the scorer offsets by at most 5, though not `last + 7` for the
topmost notes), the octave-projection set is exactly the set of pitches
congruent to `p` modulo 12 lying within the inclusive bounds 21 and 100 —
not 108 as the claim states. -/
theorem claim_C4 (p q : ℤ) (h1 : 16 ≤ p) (h2 : p ≤ 105) :
    q ∈ all_octaves p ↔ (q % 12 = p % 12 ∧ 21 ≤ q ∧ q ≤ 100) := by
  constructor
  · intro hq
    unfold all_octaves at hq
    rw [List.mem_map] at hq
    obtain ⟨i, hi, rfl⟩ := hq
    obtain ⟨him, hcond⟩ := List.mem_filter.1 hi
    simp only [decide_eq_true_eq] at hcond
    exact ⟨by omega, hcond.1, hcond.2⟩
  · rintro ⟨hmod, h21, h100⟩
    have hdvd : (12:ℤ) ∣ (q - p) := by omega
    obtain ⟨i, hi⟩ := hdvd
    unfold all_octaves
    rw [List.mem_map]
    refine ⟨i, List.mem_filter.2 ⟨?_, ?_⟩, by omega⟩
    · have hib : -7 ≤ i ∧ i ≤ 7 := by omega
      simp only [List.mem_cons, List.not_mem_nil, or_false]
      omega
    · simp only [decide_eq_true_eq]
      omega

/-- Concrete instance of the amended claim C4: 72 (C5) is an octave
projection of 60 (C4). -/
theorem claim_C4_witness : (72:ℤ) ∈ all_octaves 60 :=
  (claim_C4 60 72 (by decide) (by decide)).mpr (by decide)

/-- C5: the full-sequence score of a non-empty sequence is the sum, over
every position from the second note onward, of the single-candidate score of
that note against the prefix of all earlier notes; consequently, the
full-sequence score of a completed builder run equals exactly the sum of the
per-step scores the builder computed for the notes it appended. -/
theorem claim_C5 :
    (∀ (cfg : ScoringConfig) (key : String) (cp : List (List ℤ)) (ps : List ℤ),
      ps ≠ [] →
      value_fn cfg key cp ps =
        some (∑ i ∈ Finset.range (ps.length - 1),
          calculate_score_total cfg key cp (ps.take (i + 1)) (ps.getD (i + 1) 0))) ∧
    (∀ (cfg : ScoringConfig) (rng : ℕ → ℕ),
      value_fn cfg (local_search_run (calculate_score_total cfg) rng).key
          (local_search_run (calculate_score_total cfg) rng).chord_progression
          (local_search_run (calculate_score_total cfg) rng).pitches =
        some (local_search_run (calculate_score_total cfg) rng).scores.sum) :=
  ⟨fun cfg key cp ps h => value_fn_eq_sum cfg key cp ps h,
   fun cfg rng => run_value_eq_scores_sum cfg rng⟩

/-- Concrete instance of claim C5 on the two-note sequence C4, E4. -/
theorem claim_C5_witness :
    value_fn sampleConfig "C" [[60]] [60, 64] =
      some (∑ i ∈ Finset.range (([60, 64] : List ℤ).length - 1),
        calculate_score_total sampleConfig "C" [[60]]
          (([60, 64] : List ℤ).take (i + 1)) (([60, 64] : List ℤ).getD (i + 1) 0)) :=
  claim_C5.1 sampleConfig "C" [[60]] [60, 64] (by decide)

/-- C6: for every supported key, the progression is a list of exactly four
chords whose roots are the scale degrees I, V, VI, IV of that key (tonic,
tonic + 7, tonic + 9, tonic + 5 semitones), where the I chord is uninverted,
the V chord is in second inversion, the VI chord is in first inversion, and
the IV chord is in second inversion; the progression is a function of the key
alone and varies with no per-call parameter. -/
theorem claim_C6 (key : String) (h : key ∈ KEYS) :
    (build_chord_progression key).isSome ∧
    ((build_chord_progression key).getD []).length = 4 ∧
    get_starting_note key "I" = some (TONIC_NOTE_FOR_KEY key) ∧
    get_starting_note key "V" = some (TONIC_NOTE_FOR_KEY key + 7) ∧
    get_starting_note key "VI" = some (TONIC_NOTE_FOR_KEY key + 9) ∧
    get_starting_note key "IV" = some (TONIC_NOTE_FOR_KEY key + 5) ∧
    get_chord key (TONIC_NOTE_FOR_KEY key) "major_triad" =
      some (((build_chord_progression key).getD []).getD 0 []) ∧
    get_chord_second_inversion key (TONIC_NOTE_FOR_KEY key + 7) "major_triad" =
      some (((build_chord_progression key).getD []).getD 1 []) ∧
    get_chord_first_inversion key (TONIC_NOTE_FOR_KEY key + 9) "major_triad" =
      some (((build_chord_progression key).getD []).getD 2 []) ∧
    get_chord_second_inversion key (TONIC_NOTE_FOR_KEY key + 5) "major_triad" =
      some (((build_chord_progression key).getD []).getD 3 []) := by
  fin_cases h <;> decide

/-- Concrete instance of claim C6 in the key of C. -/
theorem claim_C6_witness :
    (build_chord_progression "C").isSome ∧
    ((build_chord_progression "C").getD []).length = 4 ∧
    get_starting_note "C" "I" = some (TONIC_NOTE_FOR_KEY "C") ∧
    get_starting_note "C" "V" = some (TONIC_NOTE_FOR_KEY "C" + 7) ∧
    get_starting_note "C" "VI" = some (TONIC_NOTE_FOR_KEY "C" + 9) ∧
    get_starting_note "C" "IV" = some (TONIC_NOTE_FOR_KEY "C" + 5) ∧
    get_chord "C" (TONIC_NOTE_FOR_KEY "C") "major_triad" =
      some (((build_chord_progression "C").getD []).getD 0 []) ∧
    get_chord_second_inversion "C" (TONIC_NOTE_FOR_KEY "C" + 7) "major_triad" =
      some (((build_chord_progression "C").getD []).getD 1 []) ∧
    get_chord_first_inversion "C" (TONIC_NOTE_FOR_KEY "C" + 9) "major_triad" =
      some (((build_chord_progression "C").getD []).getD 2 []) ∧
    get_chord_second_inversion "C" (TONIC_NOTE_FOR_KEY "C" + 5) "major_triad" =
      some (((build_chord_progression "C").getD []).getD 3 []) :=
  claim_C6 "C" (by decide)

/-- C7 counterexample: `local_search` accepts no target length; a concrete
run returns 10 notes, so a caller asking for, say, 3 notes does not get 3. -/
theorem claim_C7_counterexample :
    (local_search (fun _ _ _ _ => (0:ℤ)) (fun _ => 0)).length = 10 ∧ (10:ℕ) ≠ 3 :=
  ⟨local_search_length _ _, by decide⟩

/-- C7 (amended): the builder takes no target-length parameter; the length is
the hard-coded `desired_length = 10`, so every run returns exactly 10 notes
(seed plus 9 appended), for every scorer and every random stream.  No
degenerate non-positive-length case exists or is explicitly handled. -/
theorem claim_C7 (f : String → List (List ℤ) → List ℤ → ℤ → ℤ) (rng : ℕ → ℕ) :
    (local_search f rng).length = 10 :=
  local_search_length f rng

/-- C8: the builder is a deterministic function of its scorer and its random
source: two runs consuming identical streams of draws produce identical
sequences. -/
theorem claim_C8 (f : String → List (List ℤ) → List ℤ → ℤ → ℤ)
    (r1 r2 : ℕ → ℕ) (h : ∀ n, r1 n = r2 n) :
    local_search f r1 = local_search f r2 := by
  rw [funext h]

/-- Concrete instance of claim C8 with the all-zero stream. -/
theorem claim_C8_witness :
    local_search (fun _ _ _ _ => (1:ℤ)) (fun _ => 0) =
      local_search (fun _ _ _ _ => (1:ℤ)) (fun _ => 0) :=
  claim_C8 (fun _ _ _ _ => (1:ℤ)) (fun _ => 0) (fun _ => 0) (fun _ => rfl)

/-- C9 counterexample: with previous pitch 108 (C8, in the playable range),
the perfect-fifth offset 115 leaves both the claimed range bound 108 and the
code's bound 100, yet candidate 91 still satisfies the interval condition via
octave projection (91 = 115 - 24), so the super-consonant reward (7) is added:
the score is `some 9` (key reward 2 + fifth reward 7), not `some 2` as the
claim's "contributes no reward" reading would require. -/
theorem claim_C9_counterexample :
    ((100:ℤ) < 108 + 7) ∧ ((108:ℤ) < 108 + 7) ∧
    ((91:ℤ) ∈ all_octaves (108 + 7)) ∧
    calculate_score_of_new_note sampleConfig "C"
      ((build_chord_progression "C").getD []) [108] 91 = some 9 ∧
    (9:ℤ) ≠ 2 := by
  decide

/-- C9 (amended): on every non-empty history, evaluation of the scorer
terminates normally with a defined value (it is total on its domain and never
raises an out-of-range error); an interval offset that leaves the playable
range does not raise either — the offset's octave projection is clamped to
the inclusive bounds 21 and 100, and membership in it (which may still hold
for an in-range candidate of the same pitch class) decides the reward. -/
theorem claim_C9 :
    (∀ (cfg : ScoringConfig) (key : String) (cp : List (List ℤ))
      (hist : List ℤ) (cand : ℤ), hist ≠ [] →
      ∃ s, calculate_score_of_new_note cfg key cp hist cand = some s) ∧
    (∀ p : ℤ, ∀ q ∈ all_octaves p, 21 ≤ q ∧ q ≤ 100) := by
  constructor
  · exact fun cfg key cp hist cand h => calculate_score_isSome cfg key cp hist cand h
  · intro p q hq
    unfold all_octaves at hq
    rw [List.mem_map] at hq
    obtain ⟨i, hi, rfl⟩ := hq
    have hcond := (List.mem_filter.1 hi).2
    simp only [decide_eq_true_eq] at hcond
    exact hcond

/-- Concrete instance of the amended claim C9. -/
theorem claim_C9_witness :
    (∃ s, calculate_score_of_new_note sampleConfig "C" [[60]] [60] 62 = some s) ∧
    (21 ≤ (31:ℤ) ∧ (31:ℤ) ≤ 100) :=
  ⟨claim_C9.1 sampleConfig "C" [[60]] [60] 62 (by decide),
   claim_C9.2 115 31 (by decide)⟩

/-- C10: for every valid key, in-key starting note and known chord type, the
first-inversion and second-inversion chord helpers return exactly the same
list of pitch values as the uninverted chord, in ascending order: no member
is shifted by an octave, so "inverting" changes neither the pitches (as a
multiset) nor their order. -/
theorem claim_C10 (key : String) (sn : ℤ) (chord : String) (hk : key ∈ KEYS)
    (hs : sn ∈ NOTES_FOR_KEY key) (hc : (STEPS_FOR_CHORD chord).isSome) :
    get_chord key sn chord = some [sn, sn + 4, sn + 7] ∧
    get_chord_first_inversion key sn chord = some [sn, sn + 4, sn + 7] ∧
    get_chord_second_inversion key sn chord = some [sn, sn + 4, sn + 7] ∧
    List.Sorted (· ≤ ·) [sn, sn + 4, sn + 7] := by
  have hcm : chord = "major_triad" := by
    by_cases hcm : chord = "major_triad"
    · exact hcm
    · rw [STEPS_FOR_CHORD, if_neg hcm] at hc
      exact absurd hc (by simp)
  subst hcm
  have hchord : get_chord key sn "major_triad" = some [sn, sn + 4, sn + 7] := by
    rw [get_chord, if_pos hk, if_pos hs]
    simp [STEPS_FOR_CHORD]
  have e1 : ¬ (sn + 7 ≤ sn) := by omega
  have e2 : ¬ (sn + 4 ≤ sn) := by omega
  have e3 : sn + 4 ≤ sn + 7 := by omega
  have e4 : sn ≤ sn + 4 := by omega
  have e5 : ¬ (sn + 7 ≤ sn + 4) := by omega
  refine ⟨hchord, ?_, ?_, ?_⟩
  · rw [get_chord_first_inversion, hchord]
    simp [sortedAsc, List.insertionSort, List.orderedInsert, e1, e2, e3]
  · rw [get_chord_second_inversion, hchord]
    simp [sortedAsc, List.insertionSort, List.orderedInsert, e1, e4, e5]
  · simp [List.sorted_cons]

/-- Concrete instance of claim C10: the C major triad on C4 and its
"inversions". -/
theorem claim_C10_witness :
    get_chord "C" 60 "major_triad" = some [60, 60 + 4, 60 + 7] ∧
    get_chord_first_inversion "C" 60 "major_triad" = some [60, 60 + 4, 60 + 7] ∧
    get_chord_second_inversion "C" 60 "major_triad" = some [60, 60 + 4, 60 + 7] ∧
    List.Sorted (· ≤ ·) [(60:ℤ), 60 + 4, 60 + 7] :=
  claim_C10 "C" 60 "major_triad" (by decide) (by decide) (by decide)

end M00sic
